import Mathlib

/-!
Verification of `miasm2/analysis/cst_propag.py`: a constant-propagation
analysis over a symbolic IR.  The module under study has three parts:

* `is_expr_cst`, a syntactic classifier deciding whether an expression is
  built only from integer literals, init-time register identifiers and
  (opaque) memory reads;
* `compute_cst_propagation_states`, a worklist fixpoint driver that
  propagates symbolic states along the control-flow graph, merging states at
  join points;
* `SymbExecStateFix.emulbloc` / `propagate_cst_expr`, a rewrite pass that
  re-emulates every block under its converged entering state, substitutes
  constant sub-expressions, and records a link table mapping rewritten
  operands back to their originals.

The symbolic execution engine, the expression simplifier `expr_simp`, the
destination enumeration `possible_values` and the state `merge` operation are
external collaborators of the module; they are embedded as parameters
(an `Engine` record of oracle functions), so every theorem below holds for
any implementation of those collaborators.  Python dictionaries are embedded
as association lists (ordered by write), Python sets as duplicate-free
insertion lists, and the unbounded `while` loop of the driver as a step
function iterated on explicit fuel.
-/

/-- Basic-block labels (`asm_label` objects in miasm) are opaque keys;
we embed them as naturals. -/
abbrev Label := Nat

/-- Symbolic expressions, as far as `cst_propag.py` inspects them:
integer literals (`ExprInt`), identifiers (`ExprId`), memory reads
(`ExprMem`, an address expression plus an access width) and composite
nodes (`ExprOp`; `ExprCond`/`ExprSlice`/`ExprCompose` behave like `op`
for every operation used here: `get_r` and `replace_expr` just recurse
into the children). -/
inductive Expr where
  | int (v : Nat) (size : Nat)
  | id (name : String) (size : Nat)
  | mem (addr : Expr) (size : Nat)
  | op (name : String) (args : List Expr)

mutual

/-- Decidable equality for `Expr` (structural, as miasm expression
equality/hashing is structural). -/
def Expr.decEq : (a b : Expr) → Decidable (a = b)
  | .int v s, .int v2 s2 =>
      match Nat.decEq v v2, Nat.decEq s s2 with
      | isTrue h1, isTrue h2 => isTrue (by rw [h1, h2])
      | isFalse h1, _ => isFalse (fun he => by cases he; exact h1 rfl)
      | isTrue _, isFalse h2 => isFalse (fun he => by cases he; exact h2 rfl)
  | .int _ _, .id _ _ => isFalse (fun h => nomatch h)
  | .int _ _, .mem _ _ => isFalse (fun h => nomatch h)
  | .int _ _, .op _ _ => isFalse (fun h => nomatch h)
  | .id _ _, .int _ _ => isFalse (fun h => nomatch h)
  | .id n s, .id n2 s2 =>
      match String.decEq n n2, Nat.decEq s s2 with
      | isTrue h1, isTrue h2 => isTrue (by rw [h1, h2])
      | isFalse h1, _ => isFalse (fun he => by cases he; exact h1 rfl)
      | isTrue _, isFalse h2 => isFalse (fun he => by cases he; exact h2 rfl)
  | .id _ _, .mem _ _ => isFalse (fun h => nomatch h)
  | .id _ _, .op _ _ => isFalse (fun h => nomatch h)
  | .mem _ _, .int _ _ => isFalse (fun h => nomatch h)
  | .mem _ _, .id _ _ => isFalse (fun h => nomatch h)
  | .mem a s, .mem a2 s2 =>
      match Expr.decEq a a2, Nat.decEq s s2 with
      | isTrue h1, isTrue h2 => isTrue (by rw [h1, h2])
      | isFalse h1, _ => isFalse (fun he => by cases he; exact h1 rfl)
      | isTrue _, isFalse h2 => isFalse (fun he => by cases he; exact h2 rfl)
  | .mem _ _, .op _ _ => isFalse (fun h => nomatch h)
  | .op _ _, .int _ _ => isFalse (fun h => nomatch h)
  | .op _ _, .id _ _ => isFalse (fun h => nomatch h)
  | .op _ _, .mem _ _ => isFalse (fun h => nomatch h)
  | .op n args, .op n2 args2 =>
      match String.decEq n n2, Expr.decEqList args args2 with
      | isTrue h1, isTrue h2 => isTrue (by rw [h1, h2])
      | isFalse h1, _ => isFalse (fun he => by cases he; exact h1 rfl)
      | isTrue _, isFalse h2 => isFalse (fun he => by cases he; exact h2 rfl)
termination_by structural a => a

def Expr.decEqList : (a b : List Expr) → Decidable (a = b)
  | [], [] => isTrue rfl
  | [], _ :: _ => isFalse (fun h => nomatch h)
  | _ :: _, [] => isFalse (fun h => nomatch h)
  | a :: as, b :: bs =>
      match Expr.decEq a b, Expr.decEqList as bs with
      | isTrue h1, isTrue h2 => isTrue (by rw [h1, h2])
      | isFalse h1, _ => isFalse (fun he => by cases he; exact h1 rfl)
      | isTrue _, isFalse h2 => isFalse (fun he => by cases he; exact h2 rfl)
termination_by structural a => a

end

instance : DecidableEq Expr := Expr.decEq

/-- `Expr.is_mem()`. -/
def Expr.is_mem : Expr → Bool
  | .mem _ _ => true
  | _ => false

/-- `Expr.is_id()`. -/
def Expr.is_id : Expr → Bool
  | .id _ _ => true
  | _ => false

/-- `Expr.is_int()`. -/
def Expr.is_int : Expr → Bool
  | .int _ _ => true
  | _ => false

mutual

/-- `Expr.get_r(mem_read, cst_read)`: the set of elements read by an
expression.  An `ExprInt` is read only under `cst_read`; an `ExprId` is
always read; an `ExprMem` is read itself and, under `mem_read`, so is
everything read by its address; a composite node reads the union of what
its children read.  miasm returns a Python set; we return the list of
reads in visit order (only membership matters to the callers). -/
def Expr.get_r (mem_read cst_read : Bool) : Expr → List Expr
  | .int v s => if cst_read then [.int v s] else []
  | .id n s => [.id n s]
  | .mem a s =>
      if mem_read then .mem a s :: a.get_r mem_read cst_read else [.mem a s]
  | .op _ args => get_r_list mem_read cst_read args
termination_by structural e => e

def get_r_list (mem_read cst_read : Bool) : List Expr → List Expr
  | [] => []
  | e :: es => e.get_r mem_read cst_read ++ get_r_list mem_read cst_read es
termination_by structural es => es

end

/-- First match in an association list (the only lookups performed on
`to_propag` are at `ExprId` keys, which are inserted at most once). -/
def lookupAssoc (dct : List (Expr × Expr)) (e : Expr) : Option Expr :=
  match dct with
  | [] => none
  | (k, v) :: rest => if k = e then some v else lookupAssoc rest e

mutual

/-- `Expr.replace_expr(dct)`: bottom-up substitution — children are
rewritten first, then the rebuilt node itself is looked up in `dct`. -/
def Expr.replace_expr (dct : List (Expr × Expr)) : Expr → Expr
  | .int v s => (lookupAssoc dct (.int v s)).getD (.int v s)
  | .id n s => (lookupAssoc dct (.id n s)).getD (.id n s)
  | .mem a s =>
      let a2 := a.replace_expr dct
      (lookupAssoc dct (.mem a2 s)).getD (.mem a2 s)
  | .op n args =>
      let args2 := replace_expr_list dct args
      (lookupAssoc dct (.op n args2)).getD (.op n args2)
termination_by structural e => e

def replace_expr_list (dct : List (Expr × Expr)) : List Expr → List Expr
  | [] => []
  | e :: es => e.replace_expr dct :: replace_expr_list dct es
termination_by structural es => es

end

/-- One IR assign-step (`AssignBlock`): a mapping from destination
expressions to source expressions, plus the originating instruction, of
which only the operand list `instr.args` is consumed here. -/
structure AssignBlk where
  assignments : List (Expr × Expr)
  instr_args : List Expr
deriving DecidableEq

/-- `IRBlock`: a label and an ordered list of assign-steps (`irb.irs`). -/
structure IRBlock where
  label : Label
  irs : List AssignBlk
deriving DecidableEq

/-- An argument of `ir_arch.get_label`: either an expression (a destination
value) or an already-resolved label (the driver re-resolves labels it has
just obtained for literal destinations). -/
inductive Addr where
  | expr (e : Expr)
  | lbl (l : Label)
deriving DecidableEq

/-- The slice of the `ir_arch` collaborator that `cst_propag.py` consumes:
the init-register identifiers (`ir_arch.arch.regs.all_regs_ids_init`), label
resolution (`ir_arch.get_label`), the block table (`ir_arch.blocks`, a dict,
embedded as a partial map) and the stack pointer (`ir_arch.sp`). -/
structure IRArch where
  all_regs_ids_init : List Expr
  get_label : Addr → Label
  blocks : Label → Option IRBlock
  sp : Expr

/-- `is_expr_cst(ir_arch, expr)`: true iff every element of
`expr.get_r(mem_read=True)` is a memory read, an identifier belonging to
the init-register set, or an integer literal. -/
def is_expr_cst (ir_arch : IRArch) (expr : Expr) : Bool :=
  let elements := expr.get_r true false
  elements.all fun element =>
    if element.is_mem then true
    else if element.is_id && decide (element ∈ ir_arch.all_regs_ids_init) then
      true
    else if element.is_int then true
    else false

/-- The external collaborators of the module, over an opaque state type `S`:
single-block symbolic emulation (`emul_ir_block`, returning the resulting
instruction-pointer expression and the engine state), the post-emulation
stack cleanup (`del_mem_above_stack`), state `merge`, destination
enumeration (`possible_values`, each returned expression being one `.value`
of the enumerated candidates), per-expression evaluation (`eval_expr`),
per-step state advancement (`eval_ir`) and the simplifier (`expr_simp`).
Every theorem below is proved for an arbitrary engine. -/
structure Engine (S : Type) where
  emul_ir_block : Label → S → Expr × S
  del_mem_above_stack : Expr → S → S
  merge : S → S → S
  possible_values : Expr → List Expr
  eval_expr : S → Expr → Expr
  eval_ir : AssignBlk → S → S
  expr_simp : Expr → Expr

/-- The `to_propag` dictionary built by `SymbExecStateFix.propag_expr_cst`:
for each read element of `expr` that is an `ExprId` whose current
evaluation classifies as constant, map the identifier to that value. -/
def to_propag {S : Type} (eng : Engine S) (ir_arch : IRArch) (state : S)
    (expr : Expr) : List (Expr × Expr) :=
  (expr.get_r true false).filterMap fun element =>
    if element.is_id then
      let value := eng.eval_expr state element
      if is_expr_cst ir_arch value then some (element, value) else none
    else none

/-- `SymbExecStateFix.propag_expr_cst(expr)`: substitute the constant
identifiers of `expr` and re-simplify. -/
def propag_expr_cst {S : Type} (eng : Engine S) (ir_arch : IRArch)
    (state : S) (expr : Expr) : Expr :=
  eng.expr_simp (expr.replace_expr (to_propag eng ir_arch state expr))

/-- Destination handling of one dst/src pair in `emulbloc`: a memory
destination has `propag_expr_cst` applied to its address (`dst.arg`) and is
rebuilt at the same width; any other destination is left as is. -/
def rewriteDst {S : Type} (eng : Engine S) (ir_arch : IRArch) (state : S) :
    Expr → Expr
  | .mem ptr s => .mem (propag_expr_cst eng ir_arch state ptr) s
  | dst => dst

/-- The rewritten assign-step `AssignBlock(new_assignblk, assignblk.instr)`:
every source has `propag_expr_cst` applied, every memory destination has it
applied to its address, and the instruction reference is preserved. -/
def rewriteAssign {S : Type} (eng : Engine S) (ir_arch : IRArch) (state : S)
    (assignblk : AssignBlk) : AssignBlk :=
  { assignments := assignblk.assignments.map fun p =>
      (rewriteDst eng ir_arch state p.1, propag_expr_cst eng ir_arch state p.2)
    instr_args := assignblk.instr_args }

/-- The `links` dictionary recorded for one step: for each operand of the
original instruction, its rewritten form mapped back to the original
(`links[new_arg] = arg`), in operand order. -/
def linksOf {S : Type} (eng : Engine S) (ir_arch : IRArch) (state : S)
    (assignblk : AssignBlk) : List (Expr × Expr) :=
  assignblk.instr_args.map fun arg =>
    (propag_expr_cst eng ir_arch state arg, arg)

/-- `cst_propag_link`: the writes performed into the link table, in order;
each write is a `(label, step index)` key and its `links` value. -/
abbrev LinkTable := List ((Label × Nat) × List (Expr × Expr))

/-- The per-step loop of `SymbExecStateFix.emulbloc`, from step `index` on:
rewrite the step, record its `links` under `(lbl, index)`, then advance the
engine state with `eval_ir` on the original (unsubstituted) step.  Returns
the link-table writes, the rewritten steps, and the final state. -/
def emulSteps {S : Type} (eng : Engine S) (ir_arch : IRArch) (lbl : Label) :
    Nat → List AssignBlk → S → LinkTable × List AssignBlk × S
  | _, [], state => ([], [], state)
  | index, assignblk :: rest, state =>
      let new_assignblk := rewriteAssign eng ir_arch state assignblk
      let links := linksOf eng ir_arch state assignblk
      let state2 := eng.eval_ir assignblk state
      let r := emulSteps eng ir_arch lbl (index + 1) rest state2
      (((lbl, index), links) :: r.1, new_assignblk :: r.2.1, r.2.2)

/-- `SymbExecStateFix.emulbloc(irb)`: run the steps of `irb` from index 0
and rebuild `IRBlock(irb.label, assignblks)`. -/
def emulbloc {S : Type} (eng : Engine S) (ir_arch : IRArch) (irb : IRBlock)
    (state : S) : LinkTable × IRBlock × S :=
  let r := emulSteps eng ir_arch irb.label 0 irb.irs state
  (r.1, ⟨irb.label, r.2.1⟩, r.2.2)

/-- The ways the Python code can raise: a missing dictionary key
(`states[lbl]` / `ir_arch.blocks[lbl]`) or the explicit
`assert lbl in ir_arch.blocks`. -/
inductive DriverError where
  | keyError
  | assertionError
deriving DecidableEq

/-- The loop of `propagate_cst_expr`: for every `(lbl, state)` pair of the
fixpoint result, build a fresh `SymbExecStateFix` context and run
`emulbloc` on `ir_arch.blocks[lbl]`, accumulating the link-table writes and
storing each rewritten block back into the block table. -/
def rewritePass {S : Type} (eng : Engine S) (ir_arch : IRArch) :
    List (Label × S) → (Label → Option IRBlock) → LinkTable →
    Except DriverError (LinkTable × (Label → Option IRBlock))
  | [], blocks, link => .ok (link, blocks)
  | (lbl, state) :: rest, blocks, link =>
      match blocks lbl with
      | none => .error .keyError
      | some irb =>
          let r := emulbloc eng ir_arch irb state
          rewritePass eng ir_arch rest
            (fun l => if l = r.2.1.label then some r.2.1 else blocks l)
            (link ++ r.1)

/-- Dictionary lookup in the `states` map (first matching key). -/
def lookupState {S : Type} (states : List (Label × S)) (lbl : Label) :
    Option S :=
  match states with
  | [] => none
  | (k, v) :: rest => if k = lbl then some v else lookupState rest lbl

/-- Dictionary overwrite in the `states` map. -/
def updateState {S : Type} (states : List (Label × S)) (lbl : Label)
    (state : S) : List (Label × S) :=
  states.map fun p => if p.1 = lbl then (p.1, state) else p

/-- `add_state(ir_arch, todo, states, addr, state)`: resolve `addr` to a
label, add it to the worklist, and store `state` as the label's entering
state — as is if the label has none yet, otherwise merged into the
existing entry. -/
def add_state {S : Type} (ir_arch : IRArch) (eng : Engine S)
    (todo : List Label) (states : List (Label × S)) (addr : Addr)
    (state : S) : List Label × List (Label × S) :=
  let lbl := ir_arch.get_label addr
  let todo2 := if lbl ∈ todo then todo else lbl :: todo
  match lookupState states lbl with
  | none => (todo2, (lbl, state) :: states)
  | some old => (todo2, updateState states lbl (eng.merge old state))

/-- The successor loop of `compute_cst_propagation_states`: for each
possible destination value, a memory read is logged
(`LOG_CST_PROPAG.warning('Bad destination: ...')`) and skipped; an integer
is resolved to a label first; everything else goes to `add_state`
unchanged.  Returns the updated worklist, states map and warning log. -/
def process_dsts {S : Type} (ir_arch : IRArch) (eng : Engine S) :
    List Expr → List Label → List (Label × S) → List Expr → S →
    List Label × List (Label × S) × List Expr
  | [], todo, states, warns, _ => (todo, states, warns)
  | value :: rest, todo, states, warns, post =>
      if value.is_mem then
        process_dsts ir_arch eng rest todo states (warns ++ [value]) post
      else
        let addr : Addr :=
          if value.is_int then .lbl (ir_arch.get_label (.expr value))
          else .expr value
        let r := add_state ir_arch eng todo states addr post
        process_dsts ir_arch eng rest r.1 r.2 warns post

/-- The mutable state of the driver's `while` loop: the worklist `todo`
(a set, embedded as a duplicate-free insertion list popped at the head —
the pop order is not semantically constrained), the `states` dict, the
`done` set of already-processed `(label, state)` pairs, and the warnings
emitted so far. -/
structure DriverState (S : Type) where
  todo : List Label
  states : List (Label × S)
  done : List (Label × S)
  warnings : List Expr

/-- What one iteration of the driver loop did: skipped a pair already in
`done`, or emulated the block of a fresh pair. -/
inductive Event (S : Type) where
  | skipped (lbl : Label) (state : S)
  | emulated (lbl : Label) (state : S)

/-- Result of one iteration: the loop exited (`todo` empty), or it
continued with a new driver state after the recorded event, or the Python
code raised. -/
inductive StepResult (S : Type) where
  | finished (states : List (Label × S))
  | next (d : DriverState S) (ev : Event S)
  | error (e : DriverError)

/-- One iteration of the `while todo:` loop of
`compute_cst_propagation_states`: pop a label, look its state up, skip the
pair if already in `done`, otherwise record it in `done`, check
`assert lbl in ir_arch.blocks`, emulate the block, clear the memory above
the stack pointer, and process the possible destination values of the
resulting instruction pointer. -/
def step {S : Type} [DecidableEq S] (ir_arch : IRArch) (eng : Engine S)
    (d : DriverState S) : StepResult S :=
  match d.todo with
  | [] => .finished d.states
  | lbl :: rest =>
      match lookupState d.states lbl with
      | none => .error .keyError
      | some state =>
          if (lbl, state) ∈ d.done then
            .next ⟨rest, d.states, d.done, d.warnings⟩ (.skipped lbl state)
          else
            match ir_arch.blocks lbl with
            | none => .error .assertionError
            | some _ =>
                let r := eng.emul_ir_block lbl state
                let post := eng.del_mem_above_stack ir_arch.sp r.2
                let r2 := process_dsts ir_arch eng (eng.possible_values r.1)
                  rest d.states d.warnings post
                .next ⟨r2.1, r2.2.1, (lbl, state) :: d.done, r2.2.2⟩
                  (.emulated lbl state)

/-- The events of a fuel-bounded run of the driver loop. -/
def driverEvents {S : Type} [DecidableEq S] (ir_arch : IRArch)
    (eng : Engine S) : Nat → DriverState S → List (Event S)
  | 0, _ => []
  | fuel + 1, d =>
      match step ir_arch eng d with
      | .finished _ => []
      | .error _ => []
      | .next d2 ev => ev :: driverEvents ir_arch eng fuel d2

/-- The `(label, state)` pair of an emulation event. -/
def emulPair {S : Type} : Event S → Option (Label × S)
  | .emulated lbl state => some (lbl, state)
  | .skipped _ _ => none

/-- Fuel-bounded iteration of the driver loop to completion:
`none` when the fuel runs out before `todo` empties. -/
def driverLoop {S : Type} [DecidableEq S] (ir_arch : IRArch)
    (eng : Engine S) : Nat → DriverState S →
    Option (Except DriverError (List (Label × S)))
  | 0, _ => none
  | fuel + 1, d =>
      match step ir_arch eng d with
      | .finished states => some (.ok states)
      | .error e => some (.error e)
      | .next d2 _ => driverLoop ir_arch eng fuel d2

/-- `compute_cst_propagation_states(ir_arch, init_addr, init_infos)`:
seed `states` and `todo` with the entry label and the initial state, then
run the worklist loop.  (The `if not todo: break` at the top of the source
loop is dead code: the `while` guard has just tested `todo`.) -/
def compute_cst_propagation_states {S : Type} [DecidableEq S]
    (fuel : Nat) (ir_arch : IRArch) (eng : Engine S) (init_addr : Addr)
    (init_infos : S) : Option (Except DriverError (List (Label × S))) :=
  let lbl := ir_arch.get_label init_addr
  driverLoop ir_arch eng fuel ⟨[lbl], [(lbl, init_infos)], [], []⟩

/-- `propagate_cst_expr(ir_arch, addr, init_infos)`: run the fixpoint
driver, then the rewrite pass over its result, and return the accumulated
link table. -/
def propagate_cst_expr {S : Type} [DecidableEq S] (fuel : Nat)
    (ir_arch : IRArch) (eng : Engine S) (addr : Addr) (init_infos : S) :
    Option (Except DriverError LinkTable) :=
  match compute_cst_propagation_states fuel ir_arch eng addr init_infos with
  | none => none
  | some (.error e) => some (.error e)
  | some (.ok states) =>
      match rewritePass eng ir_arch states ir_arch.blocks [] with
      | .error e => some (.error e)
      | .ok r => some (.ok r.1)

/-- The state reached after symbolically executing the first `i` original
steps of a block from `state` (what the spec calls "the state produced
by the original assignments"). -/
def eval_assignblks {S : Type} (eng : Engine S) (assignblks : List AssignBlk)
    (state : S) : S :=
  assignblks.foldl (fun s ab => eng.eval_ir ab s) state

/-- Acceptance of one read leaf, following the specification's words: "a
memory-read leaf is always accepted; an identifier leaf is accepted only if
it belongs to `init_registers`; a literal leaf is always accepted; any
other leaf kind makes the whole expression non-constant". -/
def spec_leaf_accepted (ir_arch : IRArch) : Expr → Bool
  | .mem _ _ => true
  | .id n s => decide ((Expr.id n s) ∈ ir_arch.all_regs_ids_init)
  | .int _ _ => true
  | .op _ _ => false

mutual

/-- The leaf sub-expressions read by an expression, following the
specification's words: "every leaf sub-expression read by expr, including
leaves nested inside memory-read addresses" — so a literal and an
identifier are read leaves, a memory read is itself a read leaf and the
leaves of its address are read as well, and a composite node contributes
the read leaves of its children. -/
def spec_read_leaves : Expr → List Expr
  | .int v s => [.int v s]
  | .id n s => [.id n s]
  | .mem a s => .mem a s :: spec_read_leaves a
  | .op _ args => spec_read_leaves_list args
termination_by structural e => e

def spec_read_leaves_list : List Expr → List Expr
  | [] => []
  | e :: es => spec_read_leaves e ++ spec_read_leaves_list es
termination_by structural es => es

end

/-- A concrete `IRArch` used to instantiate the counterexample and the
witnesses: one init register `RAX_init`, identity-like label resolution,
no blocks. -/
def sampleIr : IRArch where
  all_regs_ids_init := [.id "RAX_init" 32]
  get_label := fun a => match a with | .lbl l => l | .expr _ => 0
  blocks := fun _ => none
  sp := .id "RSP" 32

/-- A one-step block at label 0 whose instruction has a single operand,
used by the witnesses. -/
def sampleBlock : IRBlock where
  label := 0
  irs := [{ assignments := [(.id "RBX" 32, .id "RAX" 32)]
            instr_args := [.id "RAX" 32] }]

/-- `sampleIr` with `sampleBlock` installed at label 0. -/
def sampleIrWithBlock : IRArch :=
  { sampleIr with blocks := fun l => if l = 0 then some sampleBlock else none }

/-- A concrete engine over `S := Nat`, used to instantiate the witnesses:
emulation returns a literal destination and bumps the state, evaluation
and simplification are identities, merge takes the maximum. -/
def sampleEngine : Engine Nat where
  emul_ir_block := fun _ s => (.int 0 32, s + 1)
  del_mem_above_stack := fun _ s => s
  merge := fun a b => max a b
  possible_values := fun e => [e]
  eval_expr := fun _ e => e
  eval_ir := fun _ s => s + 1
  expr_simp := fun e => e

/-- How many writes a link table holds at a given `(label, step index)`
key — "written exactly once" means this count is 1. -/
def countKey (link : LinkTable) (key : Label × Nat) : Nat :=
  match link with
  | [] => 0
  | entry :: rest => (if entry.1 = key then 1 else 0) + countKey rest key

/-! ## The constant classifier -/

theorem is_expr_cst_eq_all (ir_arch : IRArch) (expr : Expr) :
    is_expr_cst ir_arch expr =
      (expr.get_r true false).all (spec_leaf_accepted ir_arch) := by
  show (expr.get_r true false).all _ = _
  congr 1
  funext element
  cases element <;>
    simp [spec_leaf_accepted, Expr.is_mem, Expr.is_id, Expr.is_int]

mutual

theorem all_get_r_iff_spec (ir_arch : IRArch) :
    ∀ e : Expr,
      ((e.get_r true false).all (spec_leaf_accepted ir_arch) = true ↔
        ∀ l ∈ spec_read_leaves e, spec_leaf_accepted ir_arch l = true)
  | .int v s => by simp [Expr.get_r, spec_read_leaves, spec_leaf_accepted]
  | .id n s => by simp [Expr.get_r, spec_read_leaves]
  | .mem a s => by
      simp only [Expr.get_r, if_pos, List.all_cons, spec_read_leaves,
        List.mem_cons, spec_leaf_accepted, Bool.true_and, forall_eq_or_imp,
        true_and]
      exact all_get_r_iff_spec ir_arch a
  | .op n args => by
      simp only [Expr.get_r, spec_read_leaves]
      exact all_get_r_list_iff_spec ir_arch args
termination_by structural e => e

theorem all_get_r_list_iff_spec (ir_arch : IRArch) :
    ∀ es : List Expr,
      ((get_r_list true false es).all (spec_leaf_accepted ir_arch) = true ↔
        ∀ l ∈ spec_read_leaves_list es, spec_leaf_accepted ir_arch l = true)
  | [] => by simp [get_r_list, spec_read_leaves_list]
  | e :: es => by
      simp only [get_r_list, spec_read_leaves_list, List.all_append,
        List.mem_append, Bool.and_eq_true, or_imp, forall_and]
      exact and_congr (all_get_r_iff_spec ir_arch e)
        (all_get_r_list_iff_spec ir_arch es)
termination_by structural es => es

end

/-- Claim C1: `is_expr_cst(ir_arch, expr)` returns true if and only if every
leaf sub-expression read by `expr` — including leaves nested inside
memory-read addresses — is accepted, where a memory-read leaf is always
accepted, an identifier leaf is accepted exactly when it belongs to the
init-register set, an integer-literal leaf is always accepted, and any
other leaf kind is rejected. -/
theorem is_expr_cst_iff_all_read_leaves_accepted (ir_arch : IRArch)
    (expr : Expr) :
    is_expr_cst ir_arch expr = true ↔
      ∀ l ∈ spec_read_leaves expr, spec_leaf_accepted ir_arch l = true := by
  rw [is_expr_cst_eq_all]
  exact all_get_r_iff_spec ir_arch expr

/-- Claim C2, counterexample: `Mem32[x]` is an expression whose only leaf in
the claim's sense is a memory read, whose address `x` is an identifier
outside the init-register set — and `is_expr_cst` returns false on it, not
true: `get_r(mem_read=True)` surfaces the identifiers of the address, so
the address is inspected after all. -/
theorem is_expr_cst_mem_nonconst_address_counterexample :
    (Expr.mem (.id "x" 32) 32).is_mem = true ∧
    (Expr.id "x" 32) ∉ sampleIr.all_regs_ids_init ∧
    is_expr_cst sampleIr (Expr.mem (.id "x" 32) 32) = false := by
  decide

/-- Claim C2 as amended: for an expression that is a memory read,
`is_expr_cst` returns the verdict of the address expression — the memory
read itself is accepted, but the identifiers inside its address are read
elements too, so the result is true exactly when the address itself
classifies as constant, and false when the address contains an identifier
outside the init-register set. -/
theorem is_expr_cst_mem_eq_address_verdict (ir_arch : IRArch) (a : Expr)
    (s : Nat) :
    is_expr_cst ir_arch (.mem a s) = is_expr_cst ir_arch a := by
  simp [is_expr_cst, Expr.get_r, Expr.is_mem]

/-! ## The fixpoint driver -/

theorem step_emulated {S : Type} [DecidableEq S] (ir_arch : IRArch)
    (eng : Engine S) (d d2 : DriverState S) (lbl : Label) (state : S)
    (h : step ir_arch eng d = .next d2 (.emulated lbl state)) :
    (lbl, state) ∉ d.done ∧ d2.done = (lbl, state) :: d.done := by
  unfold step at h
  split at h
  · exact StepResult.noConfusion h
  next lbl2 rest htodo =>
    split at h
    · exact StepResult.noConfusion h
    next state2 hlk =>
      split at h
      next hmem =>
        injection h with h1 h2
        exact Event.noConfusion h2
      next hmem =>
        split at h
        · exact StepResult.noConfusion h
        next blk hblk =>
          injection h with h1 h2
          injection h2 with h3 h4
          subst h3; subst h4; subst h1
          exact ⟨hmem, rfl⟩

theorem step_skipped {S : Type} [DecidableEq S] (ir_arch : IRArch)
    (eng : Engine S) (d d2 : DriverState S) (lbl : Label) (state : S)
    (h : step ir_arch eng d = .next d2 (.skipped lbl state)) :
    (lbl, state) ∈ d.done ∧ d2.states = d.states ∧ d2.done = d.done ∧
      d2.warnings = d.warnings := by
  unfold step at h
  split at h
  · exact StepResult.noConfusion h
  next lbl2 rest htodo =>
    split at h
    · exact StepResult.noConfusion h
    next state2 hlk =>
      split at h
      next hmem =>
        injection h with h1 h2
        injection h2 with h3 h4
        subst h3; subst h4; subst h1
        exact ⟨hmem, rfl, rfl, rfl⟩
      next hmem =>
        split at h
        · exact StepResult.noConfusion h
        next blk hblk =>
          injection h with h1 h2
          exact Event.noConfusion h2

theorem driverEvents_emulated_nodup {S : Type} [DecidableEq S]
    (ir_arch : IRArch) (eng : Engine S) :
    ∀ (fuel : Nat) (d : DriverState S),
      ((driverEvents ir_arch eng fuel d).filterMap emulPair).Nodup ∧
      ∀ p ∈ (driverEvents ir_arch eng fuel d).filterMap emulPair,
        p ∉ d.done := by
  intro fuel
  induction fuel with
  | zero => intro d; simp [driverEvents]
  | succ n ih =>
    intro d
    unfold driverEvents
    cases hstep : step ir_arch eng d with
    | finished states => simp
    | error e => simp
    | next d2 ev =>
      cases ev with
      | skipped lbl state =>
        obtain ⟨hmem, hst, hdone, hwarn⟩ :=
          step_skipped ir_arch eng d d2 lbl state hstep
        simp only [List.filterMap_cons, emulPair]
        refine ⟨(ih d2).1, fun p hp => ?_⟩
        have := (ih d2).2 p hp
        rw [hdone] at this
        exact this
      | emulated lbl state =>
        obtain ⟨hnot, hdone⟩ :=
          step_emulated ir_arch eng d d2 lbl state hstep
        simp only [List.filterMap_cons, emulPair]
        constructor
        · refine List.nodup_cons.mpr ⟨fun hmem => ?_, (ih d2).1⟩
          have := (ih d2).2 _ hmem
          rw [hdone] at this
          exact this (List.mem_cons_self _ _)
        · intro p hp
          rcases List.mem_cons.mp hp with rfl | hp2
          · exact hnot
          · have := (ih d2).2 p hp2
            rw [hdone] at this
            exact fun hmemp => this (List.mem_cons_of_mem _ hmemp)

/-- Claim C3: whenever the driver loop pops a `(label, state)` pair not yet
in the `done` set, the pair is recorded in `done` by the very iteration
that emulates it; a popped pair already in `done` is skipped, with no
emulation and the `states`, `done` and `warnings` components untouched;
consequently the emulated pairs of any run of the loop are pairwise
distinct — no `(label, state)` pair is ever emulated twice. -/
theorem fixpoint_no_pair_emulated_twice {S : Type} [DecidableEq S]
    (ir_arch : IRArch) (eng : Engine S) :
    (∀ (d d2 : DriverState S) (lbl : Label) (state : S),
        step ir_arch eng d = .next d2 (.emulated lbl state) →
        (lbl, state) ∉ d.done ∧ d2.done = (lbl, state) :: d.done) ∧
    (∀ (d d2 : DriverState S) (lbl : Label) (state : S),
        step ir_arch eng d = .next d2 (.skipped lbl state) →
        (lbl, state) ∈ d.done ∧ d2.states = d.states ∧ d2.done = d.done ∧
          d2.warnings = d.warnings) ∧
    (∀ (fuel : Nat) (d : DriverState S),
        ((driverEvents ir_arch eng fuel d).filterMap emulPair).Nodup) :=
  ⟨fun d d2 lbl state h => step_emulated ir_arch eng d d2 lbl state h,
   fun d d2 lbl state h => step_skipped ir_arch eng d d2 lbl state h,
   fun fuel d => (driverEvents_emulated_nodup ir_arch eng fuel d).1⟩

theorem lookupState_updateState {S : Type} (lbl : Label) (state : S) :
    ∀ (states : List (Label × S)) (old : S),
      lookupState states lbl = some old →
      lookupState (updateState states lbl state) lbl = some state := by
  intro states
  induction states with
  | nil => intro old h; exact Option.noConfusion h
  | cons p rest ih =>
    obtain ⟨k, x⟩ := p
    intro old h
    simp only [updateState, List.map_cons]
    by_cases hk : k = lbl
    · subst hk
      rw [if_pos rfl]
      simp [lookupState]
    · rw [if_neg hk]
      simp only [lookupState, if_neg hk] at h ⊢
      exact ih old h

/-- Claim C4: `add_state` resolves the successor to a label, puts that label
on the worklist, and stores the post-emulation state as the label's
entering state when the label has no entry yet, or merges it into the
existing entry otherwise; and for each non-memory destination value the
successor loop of the driver goes through exactly this `add_state` call,
with the integer destinations resolved to a label first. -/
theorem add_state_merge_and_worklist {S : Type} (ir_arch : IRArch)
    (eng : Engine S) :
    (∀ (todo : List Label) (states : List (Label × S)) (addr : Addr)
        (state : S),
      ir_arch.get_label addr ∈
        (add_state ir_arch eng todo states addr state).1) ∧
    (∀ (todo : List Label) (states : List (Label × S)) (addr : Addr)
        (state : S),
      lookupState states (ir_arch.get_label addr) = none →
      lookupState (add_state ir_arch eng todo states addr state).2
        (ir_arch.get_label addr) = some state) ∧
    (∀ (todo : List Label) (states : List (Label × S)) (addr : Addr)
        (state old : S),
      lookupState states (ir_arch.get_label addr) = some old →
      lookupState (add_state ir_arch eng todo states addr state).2
        (ir_arch.get_label addr) = some (eng.merge old state)) ∧
    (∀ (value : Expr) (rest : List Expr) (todo : List Label)
        (states : List (Label × S)) (warns : List Expr) (post : S),
      value.is_mem = false →
      process_dsts ir_arch eng (value :: rest) todo states warns post =
        process_dsts ir_arch eng rest
          (add_state ir_arch eng todo states
            (if value.is_int then .lbl (ir_arch.get_label (.expr value))
             else .expr value) post).1
          (add_state ir_arch eng todo states
            (if value.is_int then .lbl (ir_arch.get_label (.expr value))
             else .expr value) post).2 warns post) := by
  refine ⟨?_, ?_, ?_, ?_⟩
  · intro todo states addr state
    cases hlk : lookupState states (ir_arch.get_label addr) with
    | none =>
        by_cases hmem : ir_arch.get_label addr ∈ todo <;>
          simp [add_state, hlk, hmem]
    | some old =>
        by_cases hmem : ir_arch.get_label addr ∈ todo <;>
          simp [add_state, hlk, hmem]
  · intro todo states addr state h
    simp only [add_state, h]
    simp [lookupState]
  · intro todo states addr state old h
    simp only [add_state, h]
    exact lookupState_updateState _ _ states old h
  · intro value rest todo states warns post h
    simp [process_dsts, h]

theorem process_dsts_warns_indep {S : Type} (ir_arch : IRArch)
    (eng : Engine S) :
    ∀ (dsts : List Expr) (todo : List Label) (states : List (Label × S))
      (w1 w2 : List Expr) (post : S),
      (process_dsts ir_arch eng dsts todo states w1 post).1 =
        (process_dsts ir_arch eng dsts todo states w2 post).1 ∧
      (process_dsts ir_arch eng dsts todo states w1 post).2.1 =
        (process_dsts ir_arch eng dsts todo states w2 post).2.1 := by
  intro dsts
  induction dsts with
  | nil => intro todo states w1 w2 post; simp [process_dsts]
  | cons value rest ih =>
    intro todo states w1 w2 post
    by_cases h : value.is_mem = true
    · simp only [process_dsts, h, if_pos]
      exact ih todo states (w1 ++ [value]) (w2 ++ [value]) post
    · simp only [process_dsts, h, if_neg, Bool.false_eq_true,
        not_false_iff]
      exact ih _ _ w1 w2 post

theorem process_dsts_warnings {S : Type} (ir_arch : IRArch)
    (eng : Engine S) :
    ∀ (dsts : List Expr) (todo : List Label) (states : List (Label × S))
      (warns : List Expr) (post : S),
      (process_dsts ir_arch eng dsts todo states warns post).2.2 =
        warns ++ dsts.filter (fun v => v.is_mem) := by
  intro dsts
  induction dsts with
  | nil => intro todo states warns post; simp [process_dsts]
  | cons value rest ih =>
    intro todo states warns post
    by_cases h : value.is_mem = true
    · simp only [process_dsts, h, if_pos, List.filter_cons_of_pos]
      rw [ih]
      simp
    · simp only [process_dsts, h, if_neg, Bool.false_eq_true, not_false_iff]
      rw [ih, List.filter_cons_of_neg (by simp [h])]

theorem process_dsts_skips_mem {S : Type} (ir_arch : IRArch)
    (eng : Engine S) :
    ∀ (dsts : List Expr) (todo : List Label) (states : List (Label × S))
      (warns : List Expr) (post : S),
      (process_dsts ir_arch eng dsts todo states warns post).1 =
        (process_dsts ir_arch eng (dsts.filter fun v => !v.is_mem)
          todo states warns post).1 ∧
      (process_dsts ir_arch eng dsts todo states warns post).2.1 =
        (process_dsts ir_arch eng (dsts.filter fun v => !v.is_mem)
          todo states warns post).2.1 := by
  intro dsts
  induction dsts with
  | nil => intro todo states warns post; simp [process_dsts]
  | cons value rest ih =>
    intro todo states warns post
    by_cases h : value.is_mem = true
    · have hf : (List.filter (fun v => !v.is_mem) (value :: rest)) =
          List.filter (fun v => !v.is_mem) rest := by
        simp [List.filter_cons, h]
      rw [hf]
      simp only [process_dsts, h, if_pos]
      refine ⟨?_, ?_⟩
      · rw [(ih todo states (warns ++ [value]) post).1,
          (process_dsts_warns_indep ir_arch eng _ todo states
            (warns ++ [value]) warns post).1]
      · rw [(ih todo states (warns ++ [value]) post).2,
          (process_dsts_warns_indep ir_arch eng _ todo states
            (warns ++ [value]) warns post).2]
    · have hf : (List.filter (fun v => !v.is_mem) (value :: rest)) =
          value :: List.filter (fun v => !v.is_mem) rest := by
        simp [List.filter_cons, h]
      rw [hf]
      simp only [process_dsts, h, if_neg, Bool.false_eq_true, not_false_iff]
      exact ih _ _ warns post

/-- Claim C6: a possible destination value that is a memory read is
reported in the warning log and skipped by the successor loop — no state is
merged for it and no worklist entry is added — and the loop goes on with
the remaining destination values instead of aborting: the final worklist
and states map are exactly those obtained from the non-memory destinations
alone, and the warning log collects exactly the memory-read destinations,
in order. -/
theorem mem_destination_skipped_with_warning {S : Type} (ir_arch : IRArch)
    (eng : Engine S) :
    (∀ (value : Expr) (rest : List Expr) (todo : List Label)
        (states : List (Label × S)) (warns : List Expr) (post : S),
      value.is_mem = true →
      process_dsts ir_arch eng (value :: rest) todo states warns post =
        process_dsts ir_arch eng rest todo states (warns ++ [value]) post) ∧
    (∀ (dsts : List Expr) (todo : List Label) (states : List (Label × S))
        (warns : List Expr) (post : S),
      (process_dsts ir_arch eng dsts todo states warns post).2.2 =
        warns ++ dsts.filter (fun v => v.is_mem)) ∧
    (∀ (dsts : List Expr) (todo : List Label) (states : List (Label × S))
        (warns : List Expr) (post : S),
      (process_dsts ir_arch eng dsts todo states warns post).1 =
        (process_dsts ir_arch eng (dsts.filter fun v => !v.is_mem)
          todo states warns post).1 ∧
      (process_dsts ir_arch eng dsts todo states warns post).2.1 =
        (process_dsts ir_arch eng (dsts.filter fun v => !v.is_mem)
          todo states warns post).2.1) :=
  ⟨fun value rest todo states warns post h => by simp [process_dsts, h],
   process_dsts_warnings ir_arch eng,
   process_dsts_skips_mem ir_arch eng⟩

/-- Claim C7: if the driver pops a label that has an entering state in the
states map but no block in the IR block table, the
`assert lbl in ir_arch.blocks` fires — the iteration produces the
assertion failure instead of emulating anything; and when every label with
an entry in the states map has a block, that assertion branch is
unreachable. -/
theorem missing_block_assertion {S : Type} [DecidableEq S]
    (ir_arch : IRArch) (eng : Engine S) (d : DriverState S) (lbl : Label)
    (rest : List Label) (state : S) (htodo : d.todo = lbl :: rest)
    (hstate : lookupState d.states lbl = some state)
    (hdone : (lbl, state) ∉ d.done) :
    (ir_arch.blocks lbl = none →
      step ir_arch eng d = .error .assertionError) ∧
    ((∀ (l : Label) (s2 : S), lookupState d.states l = some s2 →
        ir_arch.blocks l ≠ none) →
      step ir_arch eng d ≠ .error .assertionError) := by
  constructor
  · intro hblk
    simp only [step, htodo, hstate]
    rw [if_neg hdone]
    simp only [hblk]
  · intro hall
    simp only [step, htodo, hstate]
    rw [if_neg hdone]
    cases hblk : ir_arch.blocks lbl with
    | none => exact absurd hblk (hall lbl state hstate)
    | some b => simp

theorem missing_block_assertion_witness :
    (sampleIr.blocks 0 = none →
      step sampleIr sampleEngine ⟨[0], [(0, 5)], [], []⟩ =
        .error .assertionError) ∧
    ((∀ (l : Label) (s2 : Nat),
        lookupState ((⟨[0], [(0, 5)], [], []⟩ :
          DriverState Nat)).states l = some s2 →
        sampleIr.blocks l ≠ none) →
      step sampleIr sampleEngine ⟨[0], [(0, 5)], [], []⟩ ≠
        .error .assertionError) :=
  missing_block_assertion sampleIr sampleEngine ⟨[0], [(0, 5)], [], []⟩ 0 []
    5 rfl rfl (by simp)

/-! ## The rewrite pass -/

theorem emulSteps_final_state {S : Type} (eng : Engine S) (ir_arch : IRArch)
    (lbl : Label) :
    ∀ (assignblks : List AssignBlk) (index : Nat) (state : S),
      (emulSteps eng ir_arch lbl index assignblks state).2.2 =
        eval_assignblks eng assignblks state := by
  intro assignblks
  induction assignblks with
  | nil => intro index state; simp [emulSteps, eval_assignblks]
  | cons ab rest ih =>
    intro index state
    simp only [emulSteps, eval_assignblks, List.foldl_cons]
    exact ih (index + 1) (eng.eval_ir ab state)

theorem emulSteps_append {S : Type} (eng : Engine S) (ir_arch : IRArch)
    (lbl : Label) :
    ∀ (pre post : List AssignBlk) (index : Nat) (state : S),
      emulSteps eng ir_arch lbl index (pre ++ post) state =
        ((emulSteps eng ir_arch lbl index pre state).1 ++
          (emulSteps eng ir_arch lbl (index + pre.length) post
            (eval_assignblks eng pre state)).1,
         (emulSteps eng ir_arch lbl index pre state).2.1 ++
          (emulSteps eng ir_arch lbl (index + pre.length) post
            (eval_assignblks eng pre state)).2.1,
         (emulSteps eng ir_arch lbl (index + pre.length) post
           (eval_assignblks eng pre state)).2.2) := by
  intro pre
  induction pre with
  | nil => intro post index state; simp [emulSteps, eval_assignblks]
  | cons ab rest ih =>
    intro post index state
    have hidx : index + (ab :: rest).length = index + 1 + rest.length := by
      simp [List.length_cons]; omega
    have heval : eval_assignblks eng (ab :: rest) state =
        eval_assignblks eng rest (eng.eval_ir ab state) := by
      simp [eval_assignblks]
    rw [hidx, heval]
    simp only [List.cons_append, emulSteps, List.append_eq]
    rw [ih post (index + 1) (eng.eval_ir ab state)]

/-- Claim C8: after the rewritten destination/source pairs and the link
entry of a step have been computed, the execution context advances by
evaluating the original, unsubstituted step: the state entering any suffix
of a block's step list is exactly `eval_ir` folded over the original
preceding steps, and the state left by `emulbloc` is `eval_ir` folded
over the whole original step list — the rewritten steps never feed the
state. -/
theorem emul_advances_with_original_steps {S : Type} (eng : Engine S)
    (ir_arch : IRArch) :
    (∀ (lbl : Label) (pre post : List AssignBlk) (index : Nat) (state : S),
      emulSteps eng ir_arch lbl index (pre ++ post) state =
        ((emulSteps eng ir_arch lbl index pre state).1 ++
          (emulSteps eng ir_arch lbl (index + pre.length) post
            (eval_assignblks eng pre state)).1,
         (emulSteps eng ir_arch lbl index pre state).2.1 ++
          (emulSteps eng ir_arch lbl (index + pre.length) post
            (eval_assignblks eng pre state)).2.1,
         (emulSteps eng ir_arch lbl (index + pre.length) post
           (eval_assignblks eng pre state)).2.2)) ∧
    (∀ (lbl : Label) (assignblks : List AssignBlk) (index : Nat) (state : S),
      (emulSteps eng ir_arch lbl index assignblks state).2.2 =
        eval_assignblks eng assignblks state) ∧
    (∀ (irb : IRBlock) (state : S),
      (emulbloc eng ir_arch irb state).2.2 =
        eval_assignblks eng irb.irs state) :=
  ⟨fun lbl => emulSteps_append eng ir_arch lbl,
   fun lbl => emulSteps_final_state eng ir_arch lbl,
   fun irb state => emulSteps_final_state eng ir_arch irb.label irb.irs 0 state⟩

theorem to_propag_spec {S : Type} (eng : Engine S) (ir_arch : IRArch)
    (state : S) (expr : Expr) :
    ∀ kv ∈ to_propag eng ir_arch state expr,
      kv.1.is_id = true ∧ kv.2 = eng.eval_expr state kv.1 ∧
      is_expr_cst ir_arch kv.2 = true := by
  intro kv hkv
  simp only [to_propag, List.mem_filterMap] at hkv
  obtain ⟨element, _, hf⟩ := hkv
  by_cases hid : element.is_id = true
  · rw [if_pos hid] at hf
    by_cases hcst : is_expr_cst ir_arch (eng.eval_expr state element) = true
    · rw [if_pos hcst] at hf
      injection hf with hf2
      subst hf2
      exact ⟨hid, rfl, hcst⟩
    · rw [if_neg hcst] at hf
      exact Option.noConfusion hf
  · rw [if_neg hid] at hf
    exact Option.noConfusion hf

theorem lookupAssoc_none_of_keys_id :
    ∀ (dct : List (Expr × Expr)), (∀ kv ∈ dct, kv.1.is_id = true) →
      ∀ e : Expr, e.is_id = false → lookupAssoc dct e = none := by
  intro dct
  induction dct with
  | nil => intro _ e _; rfl
  | cons kv rest ih =>
    intro hks e he
    obtain ⟨k, v⟩ := kv
    simp only [lookupAssoc]
    rw [if_neg ?_]
    · exact ih (fun kv2 h2 => hks kv2 (List.mem_cons_of_mem _ h2)) e he
    · intro hke
      have hk := (hks (k, v) (List.mem_cons_self _ _)).symm
      rw [hke, he] at hk
      exact Bool.noConfusion hk

/-- Claim C9: the substitution dictionary built by `propag_expr_cst`
contains only identifier keys, each mapped to its evaluation under the
current state, and only when that evaluation classifies as constant under
`is_expr_cst`; consequently `replace_expr` under such a dictionary leaves
every non-identifier node in place (a literal is returned unchanged, a
memory read stays a memory read over its substituted address, a composite
node stays the same composite over its substituted children) — only
identifier leaves are ever substituted. -/
theorem propag_only_substitutes_id_leaves {S : Type} (eng : Engine S)
    (ir_arch : IRArch) (state : S) :
    (∀ expr, ∀ kv ∈ to_propag eng ir_arch state expr,
      kv.1.is_id = true ∧ kv.2 = eng.eval_expr state kv.1 ∧
      is_expr_cst ir_arch kv.2 = true) ∧
    (∀ expr, propag_expr_cst eng ir_arch state expr =
      eng.expr_simp
        (expr.replace_expr (to_propag eng ir_arch state expr))) ∧
    (∀ (dct : List (Expr × Expr)), (∀ kv ∈ dct, kv.1.is_id = true) →
      (∀ v s, Expr.replace_expr dct (.int v s) = .int v s) ∧
      (∀ a s, Expr.replace_expr dct (.mem a s) =
        .mem (a.replace_expr dct) s) ∧
      (∀ n args, Expr.replace_expr dct (.op n args) =
        .op n (replace_expr_list dct args))) := by
  refine ⟨to_propag_spec eng ir_arch state, fun expr => rfl, ?_⟩
  intro dct hdct
  refine ⟨?_, ?_, ?_⟩
  · intro v s
    simp only [Expr.replace_expr]
    rw [lookupAssoc_none_of_keys_id dct hdct (.int v s) rfl]
    rfl
  · intro a s
    simp only [Expr.replace_expr]
    rw [lookupAssoc_none_of_keys_id dct hdct
      (.mem (a.replace_expr dct) s) rfl]
    rfl
  · intro n args
    simp only [Expr.replace_expr]
    rw [lookupAssoc_none_of_keys_id dct hdct
      (.op n (replace_expr_list dct args)) rfl]
    rfl

mutual

theorem replace_expr_nil : ∀ e : Expr, Expr.replace_expr [] e = e
  | .int v s => by simp [Expr.replace_expr, lookupAssoc]
  | .id n s => by simp [Expr.replace_expr, lookupAssoc]
  | .mem a s => by
      simp only [Expr.replace_expr, lookupAssoc, Option.getD_none]
      rw [replace_expr_nil a]
  | .op n args => by
      simp only [Expr.replace_expr, lookupAssoc, Option.getD_none]
      rw [replace_expr_list_nil args]
termination_by structural e => e

theorem replace_expr_list_nil : ∀ es : List Expr, replace_expr_list [] es = es
  | [] => rfl
  | e :: es => by
      simp only [replace_expr_list]
      rw [replace_expr_nil e, replace_expr_list_nil es]
termination_by structural es => es

end

/-- Claim C10: every key of a recorded link-table entry is the
`expr_simp`-simplified form of the original operand after substitution;
each original operand contributes exactly the pair
`(propag_expr_cst(arg), arg)`, and when the substitution dictionary of an
operand is empty the recorded key is `expr_simp(arg)` applied to the
unchanged original (the simplifier — an external parameter — may still
return a syntactically different expression); the entry recorded by
`emulbloc` for step `index` is precisely this mapping for the step's
instruction operands. -/
theorem link_keys_are_simplified_substituted_operands {S : Type}
    (eng : Engine S) (ir_arch : IRArch) :
    (∀ (state : S) (assignblk : AssignBlk),
      ∀ pr ∈ linksOf eng ir_arch state assignblk,
        pr.2 ∈ assignblk.instr_args ∧
        pr.1 = eng.expr_simp
          (pr.2.replace_expr (to_propag eng ir_arch state pr.2))) ∧
    (∀ (state : S) (assignblk : AssignBlk),
      ∀ arg ∈ assignblk.instr_args,
        (propag_expr_cst eng ir_arch state arg, arg) ∈
          linksOf eng ir_arch state assignblk) ∧
    (∀ (state : S) (expr : Expr),
      to_propag eng ir_arch state expr = [] →
      propag_expr_cst eng ir_arch state expr = eng.expr_simp expr) ∧
    (∀ (lbl : Label) (index : Nat) (assignblk : AssignBlk)
        (rest : List AssignBlk) (state : S),
      (emulSteps eng ir_arch lbl index (assignblk :: rest) state).1 =
        ((lbl, index), linksOf eng ir_arch state assignblk) ::
          (emulSteps eng ir_arch lbl (index + 1) rest
            (eng.eval_ir assignblk state)).1) := by
  refine ⟨?_, ?_, ?_, ?_⟩
  · intro state assignblk pr hpr
    simp only [linksOf, List.mem_map] at hpr
    obtain ⟨arg, harg, heq⟩ := hpr
    subst heq
    exact ⟨harg, rfl⟩
  · intro state assignblk arg harg
    simp only [linksOf, List.mem_map]
    exact ⟨arg, harg, rfl⟩
  · intro state expr h
    unfold propag_expr_cst
    rw [h, replace_expr_nil expr]
  · intro lbl index assignblk rest state
    simp [emulSteps]

theorem countKey_append :
    ∀ (l1 l2 : LinkTable) (key : Label × Nat),
      countKey (l1 ++ l2) key = countKey l1 key + countKey l2 key := by
  intro l1
  induction l1 with
  | nil => intro l2 key; simp [countKey]
  | cons entry rest ih =>
    intro l2 key
    simp only [List.cons_append, countKey, List.append_eq]
    rw [ih l2 key]
    omega

theorem countKey_eq_zero_of_no_key :
    ∀ (link : LinkTable) (key : Label × Nat),
      (∀ entry ∈ link, entry.1 ≠ key) → countKey link key = 0 := by
  intro link
  induction link with
  | nil => intro key _; rfl
  | cons entry rest ih =>
    intro key h
    simp only [countKey]
    rw [if_neg (h entry (List.mem_cons_self _ _)),
      ih key (fun e he => h e (List.mem_cons_of_mem _ he))]

theorem emulSteps_countKey {S : Type} (eng : Engine S) (ir_arch : IRArch)
    (lbl : Label) :
    ∀ (assignblks : List AssignBlk) (index : Nat) (state : S)
      (k1 : Label) (k2 : Nat),
      countKey (emulSteps eng ir_arch lbl index assignblks state).1 (k1, k2) =
        if k1 = lbl ∧ index ≤ k2 ∧ k2 < index + assignblks.length then 1
        else 0 := by
  intro assignblks
  induction assignblks with
  | nil =>
    intro index state k1 k2
    simp only [emulSteps, countKey, List.length_nil]
    split_ifs with h
    · omega
    · rfl
  | cons ab rest ih =>
    intro index state k1 k2
    simp only [emulSteps, countKey, List.length_cons]
    rw [ih (index + 1) (eng.eval_ir ab state) k1 k2]
    simp only [Prod.mk.injEq]
    by_cases hk : k1 = lbl
    · subst hk
      simp only [true_and]
      split_ifs <;> omega
    · rw [if_neg (fun hcon => hk hcon.1.symm),
        if_neg (fun hcon => hk hcon.1), if_neg (fun hcon => hk hcon.1)]

theorem emulSteps_key_fst {S : Type} (eng : Engine S) (ir_arch : IRArch)
    (lbl : Label) :
    ∀ (assignblks : List AssignBlk) (index : Nat) (state : S),
      ∀ entry ∈ (emulSteps eng ir_arch lbl index assignblks state).1,
        entry.1.1 = lbl := by
  intro assignblks
  induction assignblks with
  | nil => intro index state entry h; exact absurd h (List.not_mem_nil entry)
  | cons ab rest ih =>
    intro index state entry h
    simp only [emulSteps] at h
    rcases List.mem_cons.mp h with rfl | h2
    · rfl
    · exact ih (index + 1) (eng.eval_ir ab state) entry h2

theorem emulSteps_entry_mem {S : Type} (eng : Engine S) (ir_arch : IRArch)
    (lbl : Label) :
    ∀ (assignblks : List AssignBlk) (index : Nat) (state : S) (i : Nat)
      (hi : i < assignblks.length),
      ((lbl, index + i),
        linksOf eng ir_arch (eval_assignblks eng (assignblks.take i) state)
          (assignblks.get ⟨i, hi⟩)) ∈
        (emulSteps eng ir_arch lbl index assignblks state).1 := by
  intro assignblks
  induction assignblks with
  | nil => intro index state i hi; exact absurd hi (by simp)
  | cons ab rest ih =>
    intro index state i hi
    cases i with
    | zero =>
      simp only [emulSteps, List.take_zero, List.get, Nat.add_zero]
      exact List.mem_cons_self _ _
    | succ j =>
      have hj : j < rest.length := Nat.lt_of_succ_lt_succ hi
      have hmem := ih (index + 1) (eng.eval_ir ab state) j hj
      simp only [emulSteps]
      refine List.mem_cons_of_mem _ ?_
      have harith : index + (j + 1) = index + 1 + j := by omega
      rw [harith]
      exact hmem

theorem rewritePass_link_acc {S : Type} (eng : Engine S) (ir_arch : IRArch) :
    ∀ (states : List (Label × S)) (blocks : Label → Option IRBlock)
      (link : LinkTable),
      rewritePass eng ir_arch states blocks link =
        (rewritePass eng ir_arch states blocks []).map
          fun r => (link ++ r.1, r.2) := by
  intro states
  induction states with
  | nil => intro blocks link; simp [rewritePass, Except.map]
  | cons p rest ih =>
    obtain ⟨lbl, st⟩ := p
    intro blocks link
    simp only [rewritePass]
    cases hblk : blocks lbl with
    | none => simp [Except.map]
    | some irb =>
      simp only [List.nil_append]
      rw [ih _ (link ++ (emulbloc eng ir_arch irb st).1),
        ih _ (emulbloc eng ir_arch irb st).1]
      cases rewritePass eng ir_arch rest
          (fun l => if l = (emulbloc eng ir_arch irb st).2.1.label then
            some (emulbloc eng ir_arch irb st).2.1 else blocks l) [] with
      | error e => simp [Except.map]
      | ok r2 => simp [Except.map, List.append_assoc]

theorem rewritePass_key_labels {S : Type} (eng : Engine S)
    (ir_arch : IRArch) :
    ∀ (states : List (Label × S)) (blocks : Label → Option IRBlock)
      (r : LinkTable × (Label → Option IRBlock)),
      (∀ (l : Label) (b : IRBlock), blocks l = some b → b.label = l) →
      rewritePass eng ir_arch states blocks [] = .ok r →
      ∀ entry ∈ r.1, entry.1.1 ∈ states.map Prod.fst := by
  intro states
  induction states with
  | nil =>
    intro blocks r hcoh hok entry hmem
    simp only [rewritePass] at hok
    injection hok with hok2
    rw [← hok2] at hmem
    exact absurd hmem (List.not_mem_nil entry)
  | cons p rest ih =>
    obtain ⟨lbl, st⟩ := p
    intro blocks r hcoh hok entry hmem
    simp only [rewritePass] at hok
    cases hblk : blocks lbl with
    | none => rw [hblk] at hok; exact Except.noConfusion hok
    | some irb =>
      rw [hblk] at hok
      simp only [List.nil_append] at hok
      rw [rewritePass_link_acc eng ir_arch rest _
        (emulbloc eng ir_arch irb st).1] at hok
      cases hrec : rewritePass eng ir_arch rest
          (fun l => if l = (emulbloc eng ir_arch irb st).2.1.label then
            some (emulbloc eng ir_arch irb st).2.1 else blocks l) [] with
      | error e => rw [hrec] at hok; exact Except.noConfusion hok
      | ok r2 =>
        rw [hrec] at hok
        simp only [Except.map] at hok
        injection hok with hok2
        rw [← hok2] at hmem
        rcases List.mem_append.mp hmem with h1 | h2
        · have hfst :=
            emulSteps_key_fst eng ir_arch irb.label irb.irs 0 st entry h1
          rw [List.map_cons]
          exact List.mem_cons.mpr (Or.inl (hfst.trans (hcoh lbl irb hblk)))
        · have hcoh2 : ∀ (l : Label) (b : IRBlock),
              (fun l => if l = (emulbloc eng ir_arch irb st).2.1.label then
                some (emulbloc eng ir_arch irb st).2.1 else blocks l) l =
                some b → b.label = l := by
            intro l b hb
            simp only [] at hb
            split at hb
            next heq =>
              injection hb with hb2
              subst hb2
              exact heq.symm
            next => exact hcoh l b hb
          have hmem2 := ih _ r2 hcoh2 hrec entry h2
          rw [List.map_cons]
          exact List.mem_cons.mpr (Or.inr hmem2)

/-- Claim C5: the rewrite pass over the fixpoint result succeeds and its
link table has, for every label of the fixpoint result and every step
index of the block at that label, exactly one write at key
`(label, step index)`, whose value maps each rewritten operand of that
step's instruction to the corresponding original operand (the operand
rewritten under the state produced by the preceding original steps); the
value is the empty mapping exactly when the step's instruction has no
operands. -/
theorem propagate_cst_link_table_complete {S : Type} (eng : Engine S)
    (ir_arch : IRArch) :
    ∀ (states : List (Label × S)) (blocks0 : Label → Option IRBlock),
      (states.map Prod.fst).Nodup →
      (∀ (l : Label) (b : IRBlock), blocks0 l = some b → b.label = l) →
      (∀ p ∈ states, blocks0 p.1 ≠ none) →
      ∃ r, rewritePass eng ir_arch states blocks0 [] = .ok r ∧
        ∀ p ∈ states, ∀ b, blocks0 p.1 = some b →
          ∀ (i : Nat) (hi : i < b.irs.length),
            countKey r.1 (p.1, i) = 1 ∧
            ((p.1, i), linksOf eng ir_arch
                (eval_assignblks eng (b.irs.take i) p.2)
                (b.irs.get ⟨i, hi⟩)) ∈ r.1 ∧
            (linksOf eng ir_arch (eval_assignblks eng (b.irs.take i) p.2)
                (b.irs.get ⟨i, hi⟩) = [] ↔
              (b.irs.get ⟨i, hi⟩).instr_args = []) := by
  intro states
  induction states with
  | nil =>
    intro blocks0 hnodup hcoh hdef
    refine ⟨([], blocks0), rfl, ?_⟩
    intro p hp
    exact absurd hp (List.not_mem_nil p)
  | cons p rest ih =>
    obtain ⟨lbl, st⟩ := p
    intro blocks0 hnodup hcoh hdef
    cases hblk : blocks0 lbl with
    | none => exact absurd hblk (hdef (lbl, st) (List.mem_cons_self _ _))
    | some b0 =>
      have hlbl0 : b0.label = lbl := hcoh lbl b0 hblk
      have hnodup2 : (rest.map Prod.fst).Nodup :=
        (List.nodup_cons.mp hnodup).2
      have hlblnot : lbl ∉ rest.map Prod.fst :=
        (List.nodup_cons.mp hnodup).1
      have hnewlbl : (emulbloc eng ir_arch b0 st).2.1.label = b0.label := rfl
      have hcoh1 : ∀ (l : Label) (b : IRBlock),
          (fun l => if l = (emulbloc eng ir_arch b0 st).2.1.label then
            some (emulbloc eng ir_arch b0 st).2.1 else blocks0 l) l =
            some b → b.label = l := by
        intro l b hb
        simp only [] at hb
        split at hb
        next heq =>
          injection hb with hb2
          subst hb2
          exact heq.symm
        next => exact hcoh l b hb
      have hdef1 : ∀ q ∈ rest,
          (fun l => if l = (emulbloc eng ir_arch b0 st).2.1.label then
            some (emulbloc eng ir_arch b0 st).2.1 else blocks0 l) q.1 ≠
            none := by
        intro q hq
        simp only []
        split
        · exact fun hcon => Option.noConfusion hcon
        · exact hdef q (List.mem_cons_of_mem _ hq)
      obtain ⟨r2, hok2, hprops2⟩ := ih _ hnodup2 hcoh1 hdef1
      refine ⟨((emulbloc eng ir_arch b0 st).1 ++ r2.1, r2.2), ?_, ?_⟩
      · simp only [rewritePass, hblk, List.nil_append]
        rw [rewritePass_link_acc eng ir_arch rest _
          (emulbloc eng ir_arch b0 st).1, hok2]
        rfl
      · intro q hq b hb i hi
        obtain ⟨q1, q2⟩ := q
        rcases List.mem_cons.mp hq with heq | hq2
        · injection heq with he1 he2
          subst he1
          subst he2
          have hbb : b = b0 := by
            rw [hblk] at hb
            exact (Option.some.inj hb).symm
          subst hbb
          refine ⟨?_, ?_, ?_⟩
          · rw [countKey_append]
            have hemul : (emulbloc eng ir_arch b q2).1 =
                (emulSteps eng ir_arch b.label 0 b.irs q2).1 := rfl
            have h1 : countKey (emulbloc eng ir_arch b q2).1 (q1, i) = 1 := by
              rw [hemul, emulSteps_countKey]
              rw [if_pos ⟨hlbl0.symm, Nat.zero_le i, by omega⟩]
            have h2 : countKey r2.1 (q1, i) = 0 := by
              apply countKey_eq_zero_of_no_key
              intro entry hentry hkey
              have hmemlbl := rewritePass_key_labels eng ir_arch rest _ r2
                hcoh1 hok2 entry hentry
              rw [hkey] at hmemlbl
              exact hlblnot hmemlbl
            rw [h1, h2]
          · show ((q1, i), linksOf eng ir_arch
                (eval_assignblks eng (b.irs.take i) q2)
                (b.irs.get ⟨i, hi⟩)) ∈ (emulbloc eng ir_arch b q2).1 ++ r2.1
            rw [← hlbl0]
            have hm := emulSteps_entry_mem eng ir_arch b.label b.irs 0 q2 i hi
            rw [Nat.zero_add] at hm
            exact List.mem_append_left _ hm
          · simp [linksOf]
        · have hq1ne : q1 ≠ lbl := by
            intro hcon
            exact hlblnot (hcon ▸ List.mem_map_of_mem Prod.fst hq2)
          have hb1 : (fun l => if l = (emulbloc eng ir_arch b0 st).2.1.label
              then some (emulbloc eng ir_arch b0 st).2.1 else blocks0 l) q1 =
              some b := by
            simp only []
            rw [if_neg]
            · exact hb
            · rw [hnewlbl, hlbl0]
              exact hq1ne
          have hps := hprops2 (q1, q2) hq2 b hb1 i hi
          refine ⟨?_, ?_, hps.2.2⟩
          · rw [countKey_append]
            have h1 : countKey (emulbloc eng ir_arch b0 st).1 (q1, i) = 0 := by
              have hemul : (emulbloc eng ir_arch b0 st).1 =
                  (emulSteps eng ir_arch b0.label 0 b0.irs st).1 := rfl
              rw [hemul, emulSteps_countKey]
              rw [if_neg (fun hcon => hq1ne (hcon.1.trans hlbl0))]
            rw [h1, hps.1]
          · exact List.mem_append_right _ hps.2.1

theorem propagate_cst_link_table_complete_witness :
    ∃ r, rewritePass sampleEngine sampleIrWithBlock [(0, 7)]
        sampleIrWithBlock.blocks [] = .ok r ∧
      ∀ p ∈ [((0 : Label), (7 : Nat))], ∀ b,
        sampleIrWithBlock.blocks p.1 = some b →
        ∀ (i : Nat) (hi : i < b.irs.length),
          countKey r.1 (p.1, i) = 1 ∧
          ((p.1, i), linksOf sampleEngine sampleIrWithBlock
              (eval_assignblks sampleEngine (b.irs.take i) p.2)
              (b.irs.get ⟨i, hi⟩)) ∈ r.1 ∧
          (linksOf sampleEngine sampleIrWithBlock
              (eval_assignblks sampleEngine (b.irs.take i) p.2)
              (b.irs.get ⟨i, hi⟩) = [] ↔
            (b.irs.get ⟨i, hi⟩).instr_args = []) :=
  propagate_cst_link_table_complete sampleEngine sampleIrWithBlock
    [(0, 7)] sampleIrWithBlock.blocks (by simp)
    (by
      intro l b hb
      by_cases hl : l = 0
      · subst hl
        simp only [sampleIrWithBlock, if_pos rfl] at hb
        rw [← Option.some.inj hb]
        rfl
      · simp [sampleIrWithBlock, hl] at hb)
    (by
      intro p hp
      simp only [List.mem_singleton] at hp
      subst hp
      simp [sampleIrWithBlock])
